import Mathlib

/-!
A shallow embedding of the Fuzzy-Joiner matching core: the string
utilities of `src/utils.ts` and the `runJoin` engine of `src/App.tsx`,
together with proofs about them.

Modelling conventions:
* JavaScript strings are `List Char` (`Str`), restricted to the ASCII
  behaviour of the regexes involved (`\s`, `[a-zA-Z0-9\s|]`, case folding);
* JS numbers are exact rationals `ℚ` (every score the engine manipulates
  is produced by `+`, `*`, `/`, `Math.round`, `Math.min` on small values);
* a `null`/`undefined` cell value is `none : Option Str`;
* JS `Map`s are association lists in insertion order, JS `Set`s are lists
  of which only membership is consumed.
-/

abbrev Str := List Char

def strL (s : String) : Str := s.toList

/-- ASCII members of the JS whitespace class (shared by `\s` and `trim`). -/
def isSpaceB (c : Char) : Bool :=
  c.toNat = 32 || c.toNat = 9 || c.toNat = 10 || c.toNat = 13 || c.toNat = 11 || c.toNat = 12

def isDigitChar (c : Char) : Bool := 48 ≤ c.toNat && c.toNat ≤ 57

/-- The character class kept by `removeSpecialChars`: `[a-zA-Z0-9\s|]`. -/
def isKeptChar (c : Char) : Bool :=
  isDigitChar c || (65 ≤ c.toNat && c.toNat ≤ 90) || (97 ≤ c.toNat && c.toNat ≤ 122)
    || isSpaceB c || c.toNat = 124

/-- JS `toLowerCase` on the ASCII range. -/
def lowerChar (c : Char) : Char :=
  if 65 ≤ c.toNat && c.toNat ≤ 90 then Char.ofNat (c.toNat + 32) else c

/-- JS `toUpperCase` on the ASCII range. -/
def upperChar (c : Char) : Char :=
  if 97 ≤ c.toNat && c.toNat ≤ 122 then Char.ofNat (c.toNat - 32) else c

/-- JS `str.trim()`: drop leading and trailing whitespace. -/
def trimList (s : Str) : Str :=
  ((s.dropWhile isSpaceB).reverse.dropWhile isSpaceB).reverse

/-- JS `str.replace(/\s+/g, ' ')`.  The Boolean records whether the previous
character belonged to a whitespace run that was already replaced by `' '`. -/
def collapseWsAux : Bool → Str → Str
  | _, [] => []
  | prevSpace, c :: rest =>
    if isSpaceB c then
      if prevSpace then collapseWsAux true rest
      else ' ' :: collapseWsAux true rest
    else c :: collapseWsAux false rest

def collapseWs (s : Str) : Str := collapseWsAux false s

/-- Proof-side predicate: the first character, if any, is not whitespace. -/
def noLeadSpace (t : Str) : Prop := ∀ c, t.head? = some c → isSpaceB c = false

/-- Proof-side predicate: the last character, if any, is not whitespace. -/
def noTrailSpace (t : Str) : Prop := ∀ c, t.getLast? = some c → isSpaceB c = false

structure NormalizationConfig where
  removeSpecialChars : Bool
  removeNumbers : Bool
  toLowerCase : Bool
  trimWhitespace : Bool
deriving DecidableEq

/-- `normalizeString` of `src/utils.ts`; `none` models a `null`/`undefined`
cell value (both are mapped to the empty string). -/
def normalizeString (value : Option Str) (config : NormalizationConfig) : Str :=
  match value with
  | none => []
  | some s0 =>
    let s1 := if config.toLowerCase then s0.map lowerChar else s0
    let s2 := if config.trimWhitespace then trimList s1 else s1
    let s3 := if config.removeSpecialChars then s2.filter isKeptChar else s2
    let s4 := if config.removeNumbers then s3.filter (fun c => !isDigitChar c) else s3
    collapseWs s4

/-- Inner cell pass of the Levenshtein dynamic program: `prev` is the tail of
the previous row aligned with the remaining characters of `a`; `diag` and
`left` are `matrix[i-1][j-1]` and `matrix[i][j-1]`. -/
def levRowGo (bc : Char) : List Char → List Nat → Nat → Nat → List Nat
  | [], _, _, _ => []
  | _ :: _, [], _, _ => []
  | ac :: arest, p :: prest, diag, left =>
    let q := if bc = ac then diag else 1 + min diag (min left p)
    q :: levRowGo bc arest prest p q

/-- One full row of the Levenshtein dynamic program (`matrix[i]` from
`matrix[i-1]`); the leading cell is `matrix[i][0] = i`. -/
def levRow (bc : Char) (a : List Char) (prev : List Nat) : List Nat :=
  match prev with
  | [] => []
  | p0 :: prest => (p0 + 1) :: levRowGo bc a prest p0 (p0 + 1)

/-- `levenshteinDistance` of `src/utils.ts`: full row-by-row dynamic
programming, result is the last cell of the last row. -/
def levenshteinDistance (a b : Str) : Nat :=
  if a.length = 0 then b.length
  else if b.length = 0 then a.length
  else (b.foldl (fun row bc => levRow bc a row) (List.range (a.length + 1))).getLastD 0

/-- `similarityPercentage` of `src/utils.ts`, an exact rational in `[0,1]`. -/
def similarityPercentage (a b : Str) : ℚ :=
  let longer := if b.length < a.length then a else b
  let shorter := if b.length < a.length then b else a
  if longer.length = 0 then 1
  else ((longer.length : ℚ) - levenshteinDistance longer shorter) / (longer.length : ℚ)

def isVowelHWY (c : Char) : Bool :=
  c = 'A' || c = 'E' || c = 'I' || c = 'O' || c = 'U' || c = 'H' || c = 'W' || c = 'Y'

/-- The chained digit-class replacements of `getPhoneticCode`; the six
`replace` calls never touch an already-produced digit, so they amount to one
character map. -/
def soundexMapChar (c : Char) : Char :=
  if c = 'B' || c = 'F' || c = 'P' || c = 'V' then '1'
  else if c = 'C' || c = 'G' || c = 'J' || c = 'K' || c = 'Q' || c = 'S' || c = 'X' || c = 'Z' then '2'
  else if c = 'D' || c = 'T' then '3'
  else if c = 'L' then '4'
  else if c = 'M' || c = 'N' then '5'
  else if c = 'R' then '6'
  else c

/-- `replace(/(.)\1+/g, '$1')`: collapse each run of equal characters to one.
The regex dot does not match a newline, so newline runs are kept as-is. -/
def collapseRunsAux : Char → Str → Str
  | _, [] => []
  | prev, c :: rest =>
    if c = prev ∧ prev ≠ '\n' then collapseRunsAux prev rest
    else c :: collapseRunsAux c rest

def collapseRuns : Str → Str
  | [] => []
  | c :: rest => c :: collapseRunsAux c rest

/-- `getPhoneticCode` of `src/utils.ts`.  On the empty string `s[0]` is JS
`undefined`, and `undefined + ""` coerces to the string `"undefined"` before
truncation and padding. -/
def getPhoneticCode (str : Str) : Str :=
  let s := str.map upperChar
  let firstLetter : Str :=
    match s with
    | [] => strL "undefined"
    | c :: _ => [c]
  let coded := collapseRuns ((s.filter (fun c => !isVowelHWY c)).map soundexMapChar)
  let res := (firstLetter ++ coded.drop 1).take 4
  res ++ List.replicate (4 - res.length) '0'

/-! ## Data model (src/types.ts) -/

inductive MatchingAlgorithm where
  | EXACT
  | LEVENSHTEIN
  | PHONETIC
  | AI_SEMANTIC
deriving DecidableEq, Fintype, Inhabited

/-- A row: the synthetic `id` plus the column cells.  A missing column and a
stored `null` both read back as `none` (JS `undefined`/`null`), which is all
the engine ever distinguishes. -/
structure Row where
  id : String
  cells : List (String × Option Str)
deriving DecidableEq, Inhabited

/-- JS `row[col]`. -/
def rowGet (r : Row) (col : String) : Option Str :=
  match r.cells.find? (fun p => decide (p.1 = col)) with
  | some p => p.2
  | none => none

structure JoinKeyPair where
  id : String
  left : String
  right : String
deriving DecidableEq, Inhabited

structure JoinConfig where
  joinKeys : List JoinKeyPair
  algorithms : List MatchingAlgorithm
  threshold : ℚ
  normalization : NormalizationConfig
  masterColumns : List String
  targetColumns : List String

/-- One output record per master row (`MatchResultRow` of src/types.ts).
`matchStatus = true` stands for the string `'matched'`.  The JS bookkeeping
fields are kept apart from the copied column cells, so the object-key
collision a column literally named `id`/`_matchStatus` would cause in JS is
not modelled. -/
structure MatchResultRow where
  id : String
  matchStatus : Bool
  matchScore : ℤ
  matchMethod : MatchingAlgorithm
  originalValue : String
  cells : List (String × Option Str)
deriving DecidableEq, Inhabited

/-! ## Target indexer (runJoin, the `targetIndices` construction)

A JS `Map` is modelled as an association list in insertion order. -/

/-- `indexMap.get(val)?.push(idx)` after `indexMap.set(val, [])` when absent:
append `idx` to the bucket of `v`, creating the bucket at the end. -/
def insertIdx : List (Str × List Nat) → Str → Nat → List (Str × List Nat)
  | [], v, idx => [(v, [idx])]
  | (k, b) :: rest, v, idx =>
    if k = v then (k, b ++ [idx]) :: rest
    else (k, b) :: insertIdx rest v idx

/-- `Map.get`: `none` models JS `undefined`. -/
def mapGet (m : List (Str × List Nat)) (v : Str) : Option (List Nat) :=
  match m.find? (fun p => decide (p.1 = v)) with
  | some p => some p.2
  | none => none

/-- The `lookupData.forEach((row, idx) => ...)` loop building one column's
index: a row is inserted only when its normalized value is truthy, i.e.
non-empty (`if (val)`). -/
def buildIndexGo (ncfg : NormalizationConfig) (col : String) :
    List Row → Nat → List (Str × List Nat) → List (Str × List Nat)
  | [], _, m => m
  | r :: rs, i, m =>
    buildIndexGo ncfg col rs (i + 1)
      (if normalizeString (rowGet r col) ncfg = [] then m
       else insertIdx m (normalizeString (rowGet r col) ncfg) i)

/-- The index for one right-hand column.  (The source memoizes one such map
per distinct column in `targetIndices`; the memoization returns the same map,
so it is not modelled.) -/
def buildIndex (lookupData : List Row) (ncfg : NormalizationConfig) (col : String) :
    List (Str × List Nat) :=
  buildIndexGo ncfg col lookupData 0 []

/-- `targetIndices[targetCol].get(valA)`. -/
def indexGet (lookupData : List Row) (ncfg : NormalizationConfig) (col : String) (v : Str) :
    Option (List Nat) :=
  mapGet (buildIndex lookupData ncfg col) v

/-- Specification-style characterization of one index bucket, to be compared
with `buildIndex`: the positions (from `i` on) of the rows of `data` whose
normalized value in `col` is `v`, in dataset order. -/
def indexPositions (ncfg : NormalizationConfig) (col : String) (v : Str) :
    List Row → Nat → List Nat
  | [], _ => []
  | r :: rs, i =>
    if normalizeString (rowGet r col) ncfg = v then i :: indexPositions ncfg col v rs (i + 1)
    else indexPositions ncfg col v rs (i + 1)

/-! ## Hierarchical matcher (runJoin, the per-row cascade) -/

/-- The match decision for one scanned candidate: the `(isMatch, score)` pair
computed by the body of the `for (const idx of candidateIndices)` loop. -/
def scanVerdict (algs : List MatchingAlgorithm) (threshold : ℚ) (ncfg : NormalizationConfig)
    (lookupData : List Row) (targetCol : String) (valA phoneticA : Str) (idx : Nat) :
    Bool × ℚ :=
  let valB := normalizeString (rowGet (lookupData.getD idx default) targetCol) ncfg
  let em : Bool × ℚ :=
    if valA = valB ∧ algs.contains .EXACT = true then (true, 100)
    else if algs.contains .PHONETIC = true ∧ getPhoneticCode valB = phoneticA then (true, 90)
    else (false, 0)
  if em.1 = false ∧ algs.contains .LEVENSHTEIN = true then
    if threshold ≤ similarityPercentage valA valB * 100 then
      (true, similarityPercentage valA valB * 100)
    else em
  else em

/-- One scanned candidate's effect on `(nextCandidates, accumulatedScore)`:
a matching candidate is appended and its score summed into the accumulator
(which, in the source, is the same variable as the cross-step total). -/
def scanCandidate (algs : List MatchingAlgorithm) (threshold : ℚ) (ncfg : NormalizationConfig)
    (lookupData : List Row) (targetCol : String) (valA phoneticA : Str)
    (st : List Nat × ℚ) (idx : Nat) : List Nat × ℚ :=
  if (scanVerdict algs threshold ncfg lookupData targetCol valA phoneticA idx).1 then
    (st.1 ++ [idx], st.2 + (scanVerdict algs threshold ncfg lookupData targetCol valA phoneticA idx).2)
  else st

/-- One iteration of the `for (let k = 0; ...)` loop over key pairs: from the
incoming `(candidateIndices, accumulatedScore)` to the outgoing pair (the
source then breaks when the candidate list is empty). -/
def cascadeStep (lookupData : List Row) (algs : List MatchingAlgorithm) (threshold : ℚ)
    (ncfg : NormalizationConfig) (rowA : Row) (kp : JoinKeyPair)
    (ci : Option (List Nat)) (acc : ℚ) : List Nat × ℚ :=
  let valA := normalizeString (rowGet rowA kp.left) ncfg
  -- stage 1 (only while candidateIndices === null): direct index lookup,
  -- else fall back to an unconstrained pool or a dead end
  let stage1 : List Nat × ℚ × Option (List Nat) :=
    match ci with
    | some l => ([], 0, some l)
    | none =>
      match indexGet lookupData ncfg kp.right valA with
      | some exactMatches =>
        if algs.contains .EXACT || algs.contains .LEVENSHTEIN then (exactMatches, 100, none)
        else if algs.contains .LEVENSHTEIN || algs.contains .PHONETIC then
          ([], 0, some (List.range lookupData.length))
        else ([], 0, none)
      | none =>
        if algs.contains .LEVENSHTEIN || algs.contains .PHONETIC then
          ([], 0, some (List.range lookupData.length))
        else ([], 0, none)
  -- stage 2: scan the pool whenever it is concrete and no bucket was adopted
  match stage1 with
  | (nextCandidates0, best0, ci1) =>
    match ci1, nextCandidates0 with
    | some l, [] =>
      match l.foldl
          (scanCandidate algs threshold ncfg lookupData kp.right valA (getPhoneticCode valA))
          ([], acc) with
      | (nc, acc1) => if nc = [] then (nc, acc1) else (nc, acc1 / (nc.length : ℚ))
    | _, _ => (nextCandidates0, acc + best0)

/-- The cascade over the configured key pairs, with the early `break` when a
step leaves no candidate.  The returned pool is `none` only when no key pair
was processed at all. -/
def cascadeGo (lookupData : List Row) (algs : List MatchingAlgorithm) (threshold : ℚ)
    (ncfg : NormalizationConfig) (rowA : Row) :
    List JoinKeyPair → Option (List Nat) → ℚ → Option (List Nat) × ℚ
  | [], ci, acc => (ci, acc)
  | kp :: rest, ci, acc =>
    match cascadeStep lookupData algs threshold ncfg rowA kp ci acc with
    | (nc, acc1) =>
      if nc = [] then (some [], acc1)
      else cascadeGo lookupData algs threshold ncfg rowA rest (some nc) acc1

def cascade (lookupData : List Row) (cfg : JoinConfig) (rowA : Row) :
    Option (List Nat) × ℚ :=
  cascadeGo lookupData cfg.algorithms cfg.threshold cfg.normalization rowA cfg.joinKeys none 0

/-- JS `Math.round` on non-negative values: round half up. -/
def jsRound (q : ℚ) : ℤ := (q + 1/2).floor

/-! ## Join assembler (runJoin, resolution and output row construction) -/

/-- The per-master-row part of the `for (let i = 0; ...)` loop: resolution of
the cascade to the output `MatchResultRow` plus the claimed target position
(`matchIndex !== -1`).  `finalMatchMethod` is initialized to `EXACT` and never
reassigned in the source (`methodForThisKey` is computed but dead). -/
def processRow (lookupData : List Row) (cfg : JoinConfig) (rowA : Row) :
    MatchResultRow × Option Nat :=
  let finalMatchMethod := MatchingAlgorithm.EXACT
  match cascade lookupData cfg rowA with
  | (ci, acc) =>
    match ci with
    | some (m :: _) =>
      let matchFound := lookupData.getD m default
      let fs0 := acc / (cfg.joinKeys.length : ℚ)
      let fs1 := min (jsRound fs0) 100
      let finalScore := if fs1 = 0 then 100 else fs1
      ({ id := rowA.id, matchStatus := true, matchScore := finalScore,
         matchMethod := finalMatchMethod, originalValue := "Multiple Keys",
         cells := cfg.masterColumns.map (fun c => (c, rowGet rowA c))
           ++ cfg.targetColumns.map (fun c => (c, rowGet matchFound c)) }, some m)
    | _ =>
      ({ id := rowA.id, matchStatus := false, matchScore := 0,
         matchMethod := finalMatchMethod, originalValue := "No Match",
         cells := cfg.masterColumns.map (fun c => (c, rowGet rowA c))
           ++ cfg.targetColumns.map (fun c => (c, none)) }, none)

/-- One master row's effect on `(outputRows, usedTargetIndices)`.  The JS
`Set` is modelled as a list of which only membership is consumed. -/
def joinStep (tableB : List Row) (cfg : JoinConfig)
    (st : List MatchResultRow × List Nat) (rowA : Row) :
    List MatchResultRow × List Nat :=
  match processRow tableB cfg rowA with
  | (r, some m) => (st.1 ++ [r], st.2 ++ [m])
  | (r, none) => (st.1 ++ [r], st.2)

structure JoinResult where
  outputRows : List MatchResultRow
  unmatchedTargetRows : List Row
  matchedCount : Nat
  unmatchedCount : Nat
deriving DecidableEq

/-- The `runJoin` engine of `src/App.tsx` (UI state, logging and the guard on
an incomplete configuration aside): one output row per master row, the unused
target rows, and the matched/unmatched statistics. -/
def runJoin (tableA tableB : List Row) (cfg : JoinConfig) : JoinResult :=
  match tableA.foldl (joinStep tableB cfg) ([], []) with
  | (outputRows, used) =>
    { outputRows := outputRows
      unmatchedTargetRows := ((tableB.enum.filter (fun p => !used.contains p.1)).map (fun p => p.2))
      matchedCount := (outputRows.filter (fun r => r.matchStatus)).length
      unmatchedCount := outputRows.length - (outputRows.filter (fun r => r.matchStatus)).length }

/-- The `aiCandidates` collection of `runJoin`: unmatched master rows eligible
for the semantic fallback (`AI_SEMANTIC` enabled and exactly one key pair).
Its only consumer in the source is a progress-log message. -/
def aiCandidates (tableA tableB : List Row) (cfg : JoinConfig) : List (Str × Nat) :=
  if cfg.algorithms.contains .AI_SEMANTIC = true ∧ cfg.joinKeys.length = 1 then
    (tableA.enum.filter (fun p => decide ((processRow tableB cfg p.2).2 = none))).map
      (fun p => (normalizeString (rowGet p.2 (cfg.joinKeys.headD default).left) cfg.normalization, p.1))
  else []

/-! ## Concrete scenarios used by counterexamples and witnesses

The rational operations of Batteries are sealed; concrete evaluations in
counterexamples and witnesses unfold them. -/

unseal Rat.add Rat.sub Rat.mul Rat.inv Rat.ofScientific

/-- The default normalization of the UI: lowercase, trim and
special-character stripping on, digit stripping off. -/
def defaultNorm : NormalizationConfig :=
  { removeSpecialChars := true, removeNumbers := false
    toLowerCase := true, trimWhitespace := true }

def mrowC1 : Row := { id := "m1", cells := [("a", some (strL "x")), ("b", some (strL "y"))] }

def trowsC1 : List Row :=
  [ { id := "t1", cells := [("a", some (strL "x")), ("b", some (strL "y"))] },
    { id := "t2", cells := [("a", some (strL "x")), ("b", some (strL "y"))] } ]

def cfgC1 : JoinConfig :=
  { joinKeys := [{ id := "k1", left := "a", right := "a" }, { id := "k2", left := "b", right := "b" }]
    algorithms := [.EXACT]
    threshold := 80
    normalization := defaultNorm
    masterColumns := ["a", "b"]
    targetColumns := ["a", "b"] }

def mrowC4 : Row := { id := "1", cells := [("id", some (strL "1")), ("name", some (strL "jon smith"))] }

def trowsC4 : List Row :=
  [ { id := "a", cells := [("id", some (strL "a")), ("name", some (strL "John Smith"))] },
    { id := "b", cells := [("id", some (strL "b")), ("name", some (strL "Jane Doe"))] } ]

def cfgC4 : JoinConfig :=
  { joinKeys := [{ id := "1", left := "name", right := "name" }]
    algorithms := [.EXACT, .LEVENSHTEIN]
    threshold := 80
    normalization := defaultNorm
    masterColumns := ["id", "name"]
    targetColumns := ["id", "name"] }

/-- A minimal one-key scenario where the single master row takes the
index-hit path and wins target position 0 with score 100. -/
def mrowW : Row := { id := "w", cells := [("a", some (strL "x"))] }

def trowsW : List Row := [{ id := "t", cells := [("a", some (strL "x"))] }]

def cfgW : JoinConfig :=
  { joinKeys := [{ id := "k", left := "a", right := "a" }]
    algorithms := [.EXACT]
    threshold := 80
    normalization := defaultNorm
    masterColumns := ["a"]
    targetColumns := ["a"] }

/-- A target row whose cell normalizes to the empty string (here `"!!"` with
special-character stripping on). -/
def trowC2 : Row := { id := "t0", cells := [("a", some (strL "!!"))] }

/-! ## Structural lemmas about the engine -/

lemma processRow_matchMethod (lookupData : List Row) (cfg : JoinConfig) (rowA : Row) :
    ((processRow lookupData cfg rowA).1).matchMethod = .EXACT := by
  unfold processRow
  rcases cascade lookupData cfg rowA with ⟨ci, acc⟩
  rcases ci with _ | (_ | ⟨m, rest⟩) <;> rfl

lemma joinStep_fst (tableB : List Row) (cfg : JoinConfig)
    (st : List MatchResultRow × List Nat) (rowA : Row) :
    (joinStep tableB cfg st rowA).1 = st.1 ++ [(processRow tableB cfg rowA).1] := by
  unfold joinStep
  rcases h : processRow tableB cfg rowA with ⟨r, mi⟩
  rcases mi <;> simp

lemma joinStep_snd (tableB : List Row) (cfg : JoinConfig)
    (st : List MatchResultRow × List Nat) (rowA : Row) :
    (joinStep tableB cfg st rowA).2 = st.2 ++ ((processRow tableB cfg rowA).2).toList := by
  unfold joinStep
  rcases h : processRow tableB cfg rowA with ⟨r, mi⟩
  rcases mi <;> simp

lemma foldl_joinStep_fst (tableB : List Row) (cfg : JoinConfig) :
    ∀ (l : List Row) (st : List MatchResultRow × List Nat),
      (l.foldl (joinStep tableB cfg) st).1 = st.1 ++ l.map (fun r => (processRow tableB cfg r).1) := by
  intro l
  induction l with
  | nil => intro st; simp
  | cons r rs ih =>
    intro st
    rw [List.foldl_cons, ih, List.map_cons]
    rw [joinStep_fst]
    simp

lemma foldl_joinStep_snd (tableB : List Row) (cfg : JoinConfig) :
    ∀ (l : List Row) (st : List MatchResultRow × List Nat),
      (l.foldl (joinStep tableB cfg) st).2
        = st.2 ++ l.filterMap (fun r => (processRow tableB cfg r).2) := by
  intro l
  induction l with
  | nil => intro st; simp
  | cons r rs ih =>
    intro st
    rw [List.foldl_cons, ih, List.filterMap_cons]
    rw [joinStep_snd]
    rcases h : (processRow tableB cfg r).2 with _ | m <;> simp [h]

/-- The output rows of a run are the per-row results, in master order. -/
lemma runJoin_outputRows (tableA tableB : List Row) (cfg : JoinConfig) :
    (runJoin tableA tableB cfg).outputRows
      = tableA.map (fun r => (processRow tableB cfg r).1) := by
  unfold runJoin
  rcases h : tableA.foldl (joinStep tableB cfg) ([], []) with ⟨rows, used⟩
  have h2 := foldl_joinStep_fst tableB cfg tableA ([], [])
  rw [h] at h2
  simp only [List.nil_append] at h2
  subst h2
  rfl

/-- The consumption list of a run is the per-row winning positions, in master
order. -/
lemma runJoin_unmatchedTargetRows (tableA tableB : List Row) (cfg : JoinConfig) :
    (runJoin tableA tableB cfg).unmatchedTargetRows
      = (tableB.enum.filter
          (fun p => !(tableA.filterMap (fun r => (processRow tableB cfg r).2)).contains p.1)).map
            (fun p => p.2) := by
  unfold runJoin
  rcases h : tableA.foldl (joinStep tableB cfg) ([], []) with ⟨rows, used⟩
  have h2 := foldl_joinStep_snd tableB cfg tableA ([], [])
  rw [h] at h2
  simp only [List.nil_append] at h2
  subst h2
  rfl

/-! ## The scan characterized: surviving candidates and their scores -/

/-- The body of the scan loop, folded: the survivors are appended in scanned
order and the matching scores are summed on top of the incoming accumulator. -/
lemma foldl_scanCandidate (algs : List MatchingAlgorithm) (threshold : ℚ)
    (ncfg : NormalizationConfig) (lookupData : List Row) (targetCol : String)
    (valA phoneticA : Str) :
    ∀ (l : List Nat) (nc : List Nat) (acc : ℚ),
      l.foldl (scanCandidate algs threshold ncfg lookupData targetCol valA phoneticA) (nc, acc)
        = (nc ++ l.filter
            (fun i => (scanVerdict algs threshold ncfg lookupData targetCol valA phoneticA i).1),
           acc + ((l.filter
            (fun i => (scanVerdict algs threshold ncfg lookupData targetCol valA phoneticA i).1)).map
            (fun i => (scanVerdict algs threshold ncfg lookupData targetCol valA phoneticA i).2)).sum) := by
  intro l
  induction l with
  | nil => intro nc acc; simp
  | cons i rest ih =>
    intro nc acc
    rw [List.foldl_cons]
    by_cases h : (scanVerdict algs threshold ncfg lookupData targetCol valA phoneticA i).1 = true
    · rw [show scanCandidate algs threshold ncfg lookupData targetCol valA phoneticA (nc, acc) i
          = (nc ++ [i], acc + (scanVerdict algs threshold ncfg lookupData targetCol valA phoneticA i).2) by
        unfold scanCandidate; rw [if_pos h]]
      rw [ih]
      simp [List.filter_cons, h, add_assoc]
    · rw [show scanCandidate algs threshold ncfg lookupData targetCol valA phoneticA (nc, acc) i
          = (nc, acc) by
        unfold scanCandidate; rw [if_neg h]]
      rw [ih]
      simp [List.filter_cons, h]

/-- A cascade step entered with a concrete candidate pool always scans; the
outgoing pool is the order-preserving filtration of the incoming one, and with
at least one survivor the outgoing accumulator is the incoming total plus the
scan scores, divided by the survivor count. -/
lemma cascadeStep_some (lookupData : List Row) (algs : List MatchingAlgorithm)
    (threshold : ℚ) (ncfg : NormalizationConfig) (rowA : Row) (kp : JoinKeyPair)
    (l : List Nat) (acc : ℚ) :
    cascadeStep lookupData algs threshold ncfg rowA kp (some l) acc
      = ((l.filter (fun i => (scanVerdict algs threshold ncfg lookupData kp.right
            (normalizeString (rowGet rowA kp.left) ncfg)
            (getPhoneticCode (normalizeString (rowGet rowA kp.left) ncfg)) i).1)),
         if (l.filter (fun i => (scanVerdict algs threshold ncfg lookupData kp.right
            (normalizeString (rowGet rowA kp.left) ncfg)
            (getPhoneticCode (normalizeString (rowGet rowA kp.left) ncfg)) i).1)) = []
         then acc
         else (acc + ((l.filter (fun i => (scanVerdict algs threshold ncfg lookupData kp.right
            (normalizeString (rowGet rowA kp.left) ncfg)
            (getPhoneticCode (normalizeString (rowGet rowA kp.left) ncfg)) i).1)).map
              (fun i => (scanVerdict algs threshold ncfg lookupData kp.right
            (normalizeString (rowGet rowA kp.left) ncfg)
            (getPhoneticCode (normalizeString (rowGet rowA kp.left) ncfg)) i).2)).sum)
            / ((l.filter (fun i => (scanVerdict algs threshold ncfg lookupData kp.right
            (normalizeString (rowGet rowA kp.left) ncfg)
            (getPhoneticCode (normalizeString (rowGet rowA kp.left) ncfg)) i).1)).length : ℚ)) := by
  unfold cascadeStep
  simp only [foldl_scanCandidate, List.nil_append]
  split
  · next h => simp [h]
  · next h => simp [h]

/-! ## The target index characterized -/

lemma mapGet_nil (w : Str) : mapGet [] w = none := rfl

lemma mapGet_cons (k : Str) (b : List Nat) (rest : List (Str × List Nat)) (w : Str) :
    mapGet ((k, b) :: rest) w = if w = k then some b else mapGet rest w := by
  by_cases h : w = k
  · unfold mapGet
    rw [List.find?_cons_of_pos _ (by simp [h]), if_pos h]
  · unfold mapGet
    rw [List.find?_cons_of_neg _ (by simp [Ne.symm h]), if_neg h]

lemma mapGet_insertIdx : ∀ (m : List (Str × List Nat)) (v : Str) (idx : Nat) (w : Str),
    mapGet (insertIdx m v idx) w
      = if w = v then some (((mapGet m v).getD []) ++ [idx]) else mapGet m w := by
  intro m
  induction m with
  | nil =>
    intro v idx w
    by_cases hw : w = v
    · simp [insertIdx, mapGet_cons, mapGet_nil, hw]
    · simp [insertIdx, mapGet_cons, mapGet_nil, hw]
  | cons head rest ih =>
    intro v idx w
    rcases head with ⟨k, b⟩
    by_cases hk : k = v
    · subst hk
      rw [show insertIdx ((k, b) :: rest) k idx = (k, b ++ [idx]) :: rest from by
        unfold insertIdx; rw [if_pos rfl]]
      by_cases hw : w = k
      · simp [mapGet_cons, hw]
      · simp [mapGet_cons, hw]
    · rw [show insertIdx ((k, b) :: rest) v idx = (k, b) :: insertIdx rest v idx from by
        rw [insertIdx, if_neg hk]]
      by_cases hw : w = k
      · have hwv : ¬ (w = v) := by rw [hw]; exact hk
        simp [mapGet_cons, hw, hwv, hk]
      · simp [mapGet_cons, hw, ih, Ne.symm hk]

lemma mapGet_buildIndexGo (ncfg : NormalizationConfig) (col : String) :
    ∀ (data : List Row) (i : Nat) (m : List (Str × List Nat)) (v : Str), v ≠ [] →
      mapGet (buildIndexGo ncfg col data i m) v
        = match mapGet m v with
          | some b => some (b ++ indexPositions ncfg col v data i)
          | none =>
            if indexPositions ncfg col v data i = [] then none
            else some (indexPositions ncfg col v data i) := by
  intro data
  induction data with
  | nil =>
    intro i m v _
    cases h : mapGet m v <;> simp [buildIndexGo, indexPositions, h]
  | cons r rs ih =>
    intro i m v hv
    by_cases hw : normalizeString (rowGet r col) ncfg = v
    · have hwne : ¬ (normalizeString (rowGet r col) ncfg = []) := by rw [hw]; exact hv
      rw [show buildIndexGo ncfg col (r :: rs) i m
            = buildIndexGo ncfg col rs (i + 1)
                (insertIdx m (normalizeString (rowGet r col) ncfg) i) from by
          rw [buildIndexGo, if_neg hwne]]
      rw [ih (i + 1) _ v hv, hw, mapGet_insertIdx, if_pos rfl]
      rw [show indexPositions ncfg col v (r :: rs) i
            = i :: indexPositions ncfg col v rs (i + 1) from by
          rw [indexPositions, if_pos hw]]
      cases h : mapGet m v <;> simp [h]
    · rw [show indexPositions ncfg col v (r :: rs) i
            = indexPositions ncfg col v rs (i + 1) from by
          rw [indexPositions, if_neg hw]]
      by_cases hnil : normalizeString (rowGet r col) ncfg = []
      · rw [show buildIndexGo ncfg col (r :: rs) i m = buildIndexGo ncfg col rs (i + 1) m from by
          rw [buildIndexGo, if_pos hnil]]
        exact ih (i + 1) m v hv
      · rw [show buildIndexGo ncfg col (r :: rs) i m
              = buildIndexGo ncfg col rs (i + 1)
                  (insertIdx m (normalizeString (rowGet r col) ncfg) i) from by
            rw [buildIndexGo, if_neg hnil]]
        rw [ih (i + 1) _ v hv, mapGet_insertIdx, if_neg (fun hc => hw hc.symm)]

lemma mapGet_buildIndexGo_nil (ncfg : NormalizationConfig) (col : String) :
    ∀ (data : List Row) (i : Nat) (m : List (Str × List Nat)),
      mapGet m [] = none → mapGet (buildIndexGo ncfg col data i m) [] = none := by
  intro data
  induction data with
  | nil => intro i m h; exact h
  | cons r rs ih =>
    intro i m h
    by_cases hnil : normalizeString (rowGet r col) ncfg = []
    · rw [show buildIndexGo ncfg col (r :: rs) i m = buildIndexGo ncfg col rs (i + 1) m from by
        rw [buildIndexGo, if_pos hnil]]
      exact ih (i + 1) m h
    · rw [show buildIndexGo ncfg col (r :: rs) i m
            = buildIndexGo ncfg col rs (i + 1)
                (insertIdx m (normalizeString (rowGet r col) ncfg) i) from by
          rw [buildIndexGo, if_neg hnil]]
      refine ih (i + 1) _ ?_
      rw [mapGet_insertIdx, if_neg (fun hc => hnil hc.symm), h]

/-! ## Congruence in the enabled-algorithms list: only membership of
`EXACT`, `LEVENSHTEIN` and `PHONETIC` is ever consulted by the matcher -/

lemma scanVerdict_congr (algs1 algs2 : List MatchingAlgorithm)
    (hE : algs1.contains .EXACT = algs2.contains .EXACT)
    (hL : algs1.contains .LEVENSHTEIN = algs2.contains .LEVENSHTEIN)
    (hP : algs1.contains .PHONETIC = algs2.contains .PHONETIC)
    (threshold : ℚ) (ncfg : NormalizationConfig) (lookupData : List Row)
    (targetCol : String) (valA phoneticA : Str) :
    scanVerdict algs1 threshold ncfg lookupData targetCol valA phoneticA
      = scanVerdict algs2 threshold ncfg lookupData targetCol valA phoneticA := by
  funext idx
  simp only [scanVerdict, hE, hL, hP]

lemma scanCandidate_congr (algs1 algs2 : List MatchingAlgorithm)
    (hE : algs1.contains .EXACT = algs2.contains .EXACT)
    (hL : algs1.contains .LEVENSHTEIN = algs2.contains .LEVENSHTEIN)
    (hP : algs1.contains .PHONETIC = algs2.contains .PHONETIC)
    (threshold : ℚ) (ncfg : NormalizationConfig) (lookupData : List Row)
    (targetCol : String) (valA phoneticA : Str) :
    scanCandidate algs1 threshold ncfg lookupData targetCol valA phoneticA
      = scanCandidate algs2 threshold ncfg lookupData targetCol valA phoneticA := by
  funext st idx
  simp only [scanCandidate,
    scanVerdict_congr algs1 algs2 hE hL hP threshold ncfg lookupData targetCol valA phoneticA]

lemma cascadeStep_congr (algs1 algs2 : List MatchingAlgorithm)
    (hE : algs1.contains .EXACT = algs2.contains .EXACT)
    (hL : algs1.contains .LEVENSHTEIN = algs2.contains .LEVENSHTEIN)
    (hP : algs1.contains .PHONETIC = algs2.contains .PHONETIC)
    (lookupData : List Row) (threshold : ℚ) (ncfg : NormalizationConfig) (rowA : Row)
    (kp : JoinKeyPair) (ci : Option (List Nat)) (acc : ℚ) :
    cascadeStep lookupData algs1 threshold ncfg rowA kp ci acc
      = cascadeStep lookupData algs2 threshold ncfg rowA kp ci acc := by
  unfold cascadeStep
  simp only [hE, hL, hP,
    scanCandidate_congr algs1 algs2 hE hL hP threshold ncfg lookupData kp.right]

lemma cascadeGo_congr (algs1 algs2 : List MatchingAlgorithm)
    (hE : algs1.contains .EXACT = algs2.contains .EXACT)
    (hL : algs1.contains .LEVENSHTEIN = algs2.contains .LEVENSHTEIN)
    (hP : algs1.contains .PHONETIC = algs2.contains .PHONETIC)
    (lookupData : List Row) (threshold : ℚ) (ncfg : NormalizationConfig) (rowA : Row) :
    ∀ (ks : List JoinKeyPair) (ci : Option (List Nat)) (acc : ℚ),
      cascadeGo lookupData algs1 threshold ncfg rowA ks ci acc
        = cascadeGo lookupData algs2 threshold ncfg rowA ks ci acc := by
  intro ks
  induction ks with
  | nil => intro ci acc; rfl
  | cons kp rest ih =>
    intro ci acc
    unfold cascadeGo
    rw [cascadeStep_congr algs1 algs2 hE hL hP lookupData threshold ncfg rowA kp ci acc]
    simp only [ih]

lemma processRow_congr (tableB : List Row) (cfg : JoinConfig) (algs2 : List MatchingAlgorithm)
    (hE : cfg.algorithms.contains .EXACT = algs2.contains .EXACT)
    (hL : cfg.algorithms.contains .LEVENSHTEIN = algs2.contains .LEVENSHTEIN)
    (hP : cfg.algorithms.contains .PHONETIC = algs2.contains .PHONETIC)
    (rowA : Row) :
    processRow tableB cfg rowA = processRow tableB { cfg with algorithms := algs2 } rowA := by
  unfold processRow cascade
  rw [cascadeGo_congr cfg.algorithms algs2 hE hL hP tableB cfg.threshold cfg.normalization rowA
    cfg.joinKeys none 0]

/-! ## Normalization: character-level and collapse lemmas -/

lemma char_toNat_ofNat_small : ∀ n, n < 123 → (Char.ofNat n).toNat = n := by decide

lemma lowerChar_lowerChar (c : Char) : lowerChar (lowerChar c) = lowerChar c := by
  unfold lowerChar
  by_cases h : (65 ≤ c.toNat && c.toNat ≤ 90) = true
  · rw [if_pos h]
    have h' : (65 ≤ c.toNat ∧ c.toNat ≤ 90) := by simpa using h
    have ht : (Char.ofNat (c.toNat + 32)).toNat = c.toNat + 32 :=
      char_toNat_ofNat_small _ (by omega)
    rw [if_neg (by simp [ht]; omega)]
  · rw [if_neg h, if_neg h]

lemma isSpaceB_space : isSpaceB ' ' = true := by decide

lemma collapseWsAux_idem : ∀ (t : Str) (b : Bool),
    collapseWsAux b (collapseWsAux b t) = collapseWsAux b t := by
  intro t
  induction t with
  | nil => intro b; rfl
  | cons c rest ih =>
    intro b
    by_cases hc : isSpaceB c = true
    · cases b <;> simp [collapseWsAux, hc, ih, isSpaceB_space]
    · simp [collapseWsAux, hc, ih]

lemma collapseWs_normalizeString (v : Option Str) (cfg : NormalizationConfig) :
    collapseWs (normalizeString v cfg) = normalizeString v cfg := by
  cases v with
  | none => rfl
  | some s =>
    simp only [normalizeString]
    exact collapseWsAux_idem _ false

lemma mem_collapseWsAux : ∀ (t : Str) (b : Bool) (c : Char),
    c ∈ collapseWsAux b t → c ∈ t ∨ c = ' ' := by
  intro t
  induction t with
  | nil => intro b c h; cases h
  | cons d rest ih =>
    intro b c h
    by_cases hd : isSpaceB d = true
    · cases b with
      | true =>
        simp only [collapseWsAux, hd, if_pos] at h
        rcases ih true c h with h' | h'
        · exact Or.inl (List.mem_cons_of_mem d h')
        · exact Or.inr h'
      | false =>
        simp only [collapseWsAux, hd, if_pos] at h
        rcases List.mem_cons.mp h with h' | h'
        · exact Or.inr h'
        · rcases ih true c h' with h'' | h''
          · exact Or.inl (List.mem_cons_of_mem d h'')
          · exact Or.inr h''
    · simp only [collapseWsAux, hd] at h
      rcases List.mem_cons.mp h with h' | h'
      · exact Or.inl (h' ▸ List.mem_cons_self d rest)
      · rcases ih false c h' with h'' | h''
        · exact Or.inl (List.mem_cons_of_mem d h'')
        · exact Or.inr h''

lemma mem_trimList {a : Char} {t : Str} (h : a ∈ trimList t) : a ∈ t := by
  unfold trimList at h
  rw [List.mem_reverse] at h
  have h1 := (List.dropWhile_suffix isSpaceB).subset h
  rw [List.mem_reverse] at h1
  exact (List.dropWhile_suffix isSpaceB).subset h1

lemma mem_ite_filter {l : Str} {b : Bool} {p : Char → Bool} {a : Char}
    (h : a ∈ (if b = true then l.filter p else l)) : a ∈ l := by
  split at h
  · exact List.mem_of_mem_filter h
  · exact h

lemma mem_ite_trimList {l : Str} {b : Bool} {a : Char}
    (h : a ∈ (if b = true then trimList l else l)) : a ∈ l := by
  split at h
  · exact mem_trimList h
  · exact h

/-- Every character of a normalized string already carries the normalized
shape: lowercase when folding is on, in the kept class when stripping is on,
non-digit when digit removal is on. -/
lemma normalize_chars (v : Option Str) (cfg : NormalizationConfig) :
    ∀ a ∈ normalizeString v cfg,
      (cfg.toLowerCase = true → lowerChar a = a)
      ∧ (cfg.removeSpecialChars = true → isKeptChar a = true)
      ∧ (cfg.removeNumbers = true → isDigitChar a = false) := by
  cases v with
  | none => intro a ha; cases ha
  | some s =>
    intro a ha
    simp only [normalizeString, collapseWs] at ha
    rcases mem_collapseWsAux _ _ _ ha with ha' | ha'
    · refine ⟨fun hl => ?_, fun hr => ?_, fun hn => ?_⟩
      · have h1 := mem_ite_trimList (mem_ite_filter (mem_ite_filter ha'))
        rw [if_pos hl] at h1
        rcases List.mem_map.mp h1 with ⟨b', _, rfl⟩
        exact lowerChar_lowerChar b'
      · have h1 := mem_ite_filter ha'
        rw [if_pos hr] at h1
        exact List.of_mem_filter h1
      · rw [if_pos hn] at ha'
        have := List.of_mem_filter ha'
        simpa using this
    · subst ha'
      exact ⟨fun _ => by decide, fun _ => by decide, fun _ => by decide⟩

/-- Idempotence of normalization when trimming is disabled: a second pass
changes nothing because every character of the first pass's output is already
lowercased/kept/non-digit, and whitespace collapse is idempotent. -/
lemma normalize_idem_of_no_trim (v : Option Str) (c : NormalizationConfig)
    (h : c.trimWhitespace = false) :
    normalizeString (some (normalizeString v c)) c = normalizeString v c := by
  have hy := normalize_chars v c
  set y := normalizeString v c with hydef
  have h1 : (if c.toLowerCase = true then y.map lowerChar else y) = y := by
    by_cases hb : c.toLowerCase = true
    · rw [if_pos hb, List.map_congr_left (fun a ha => (hy a ha).1 hb)]
      exact List.map_id' y
    · rw [if_neg hb]
  have h2 : (if c.trimWhitespace = true then trimList y else y) = y := by
    rw [if_neg (by rw [h]; exact Bool.false_ne_true)]
  have h3 : (if c.removeSpecialChars = true then y.filter isKeptChar else y) = y := by
    by_cases hb : c.removeSpecialChars = true
    · rw [if_pos hb]
      exact List.filter_eq_self.mpr (fun a ha => (hy a ha).2.1 hb)
    · rw [if_neg hb]
  have h4 : (if c.removeNumbers = true then y.filter (fun ch => !isDigitChar ch) else y) = y := by
    by_cases hb : c.removeNumbers = true
    · rw [if_pos hb]
      refine List.filter_eq_self.mpr (fun a ha => ?_)
      simp [(hy a ha).2.2 hb]
    · rw [if_neg hb]
  calc normalizeString (some y) c
      = collapseWs y := by
        simp only [normalizeString]
        rw [h1, h2, h3, h4]
    _ = y := by rw [hydef]; exact collapseWs_normalizeString v c

/-! ## Trimming: edge-whitespace lemmas for the trim-enabled case -/

lemma head?_dropWhile (p : Char → Bool) : ∀ (t : Str) (c : Char),
    (t.dropWhile p).head? = some c → p c = false := by
  intro t
  induction t with
  | nil => intro c h; cases h
  | cons d ds ih =>
    intro c h
    by_cases hd : p d = true
    · rw [List.dropWhile_cons, if_pos hd] at h
      exact ih c h
    · rw [List.dropWhile_cons, if_neg hd] at h
      simp only [List.head?_cons, Option.some.injEq] at h
      subst h
      simpa using hd

lemma dropWhile_eq_self_of_noLead {t : Str} (h : noLeadSpace t) :
    t.dropWhile isSpaceB = t := by
  cases t with
  | nil => rfl
  | cons d ds =>
    have hd := h d rfl
    rw [List.dropWhile_cons, if_neg (by simp [hd])]

lemma getLast?_reverse' (l : Str) : l.reverse.getLast? = l.head? := by
  have h := List.head?_reverse l.reverse
  rw [List.reverse_reverse] at h
  exact h.symm

lemma trimList_eq_self {t : Str} (h1 : noLeadSpace t) (h2 : noTrailSpace t) :
    trimList t = t := by
  unfold trimList
  rw [dropWhile_eq_self_of_noLead h1]
  have h2' : noLeadSpace t.reverse := by
    intro c hc
    rw [List.head?_reverse] at hc
    exact h2 c hc
  rw [dropWhile_eq_self_of_noLead h2', List.reverse_reverse]

lemma getLast?_cons_of_ne_nil {a : Char} {l : Str} (h : l ≠ []) :
    (a :: l).getLast? = l.getLast? := by
  cases l with
  | nil => exact absurd rfl h
  | cons b bs => exact List.getLast?_cons_cons

lemma getLast?_append_of_ne_nil : ∀ (u v : Str), v ≠ [] →
    (u ++ v).getLast? = v.getLast? := by
  intro u
  induction u with
  | nil => intro v _; rfl
  | cons a u' ih =>
    intro v hv
    rw [List.cons_append, getLast?_cons_of_ne_nil, ih v hv]
    intro hc
    rcases List.append_eq_nil.mp hc with ⟨_, h2⟩
    exact hv h2

lemma getLast?_of_suffix {l1 l2 : Str} {c : Char} (h : l1.IsSuffix l2)
    (hc : l1.getLast? = some c) : l2.getLast? = some c := by
  rcases h with ⟨pre, rfl⟩
  have hne : l1 ≠ [] := by intro hn; rw [hn] at hc; cases hc
  rw [getLast?_append_of_ne_nil pre l1 hne]
  exact hc

lemma noLeadSpace_trimList (u : Str) : noLeadSpace (trimList u) := by
  intro c hc
  unfold trimList at hc
  rw [List.head?_reverse] at hc
  have hlast : ((u.dropWhile isSpaceB).reverse).getLast? = some c :=
    getLast?_of_suffix (List.dropWhile_suffix isSpaceB) hc
  rw [getLast?_reverse'] at hlast
  exact head?_dropWhile isSpaceB u c hlast

lemma noTrailSpace_trimList (u : Str) : noTrailSpace (trimList u) := by
  intro c hc
  unfold trimList at hc
  rw [getLast?_reverse'] at hc
  exact head?_dropWhile isSpaceB _ c hc

lemma noLeadSpace_collapseWs {t : Str} (h : noLeadSpace t) :
    noLeadSpace (collapseWs t) := by
  cases t with
  | nil => intro c hc; cases hc
  | cons d ds =>
    intro c hc
    have hd := h d rfl
    rw [show collapseWs (d :: ds) = d :: collapseWsAux false ds from by
      unfold collapseWs; rw [collapseWsAux, if_neg (by simp [hd])]] at hc
    simp only [List.head?_cons, Option.some.injEq] at hc
    rw [← hc]
    exact hd

lemma getLast?_mem' : ∀ (l : Str) (a : Char), l.getLast? = some a → a ∈ l := by
  intro l
  induction l with
  | nil => intro a h; cases h
  | cons b bs ih =>
    intro a h
    cases bs with
    | nil =>
      simp only [List.getLast?_singleton, Option.some.injEq] at h
      rw [h]
      exact List.mem_cons_self a []
    | cons b2 bs2 =>
      rw [List.getLast?_cons_cons] at h
      exact List.mem_cons_of_mem b (ih a h)

lemma exists_getLast? : ∀ (l : Str), l ≠ [] → ∃ d, l.getLast? = some d := by
  intro l
  induction l with
  | nil => intro h; exact absurd rfl h
  | cons b bs ih =>
    intro _
    cases bs with
    | nil => exact ⟨b, rfl⟩
    | cons b2 bs2 =>
      rcases ih (by simp) with ⟨d, hd⟩
      exact ⟨d, by rw [List.getLast?_cons_cons]; exact hd⟩

lemma collapseWsAux_true_nil : ∀ (t : Str), collapseWsAux true t = [] →
    ∀ d ∈ t, isSpaceB d = true := by
  intro t
  induction t with
  | nil => intro _ d hd; cases hd
  | cons e rest ih =>
    intro h d hd
    by_cases he : isSpaceB e = true
    · rw [show collapseWsAux true (e :: rest) = collapseWsAux true rest from by
        simp [collapseWsAux, he]] at h
      rcases List.mem_cons.mp hd with hd' | hd'
      · rw [hd']; exact he
      · exact ih h d hd'
    · rw [show collapseWsAux true (e :: rest) = e :: collapseWsAux false rest from by
        simp [collapseWsAux, he]] at h
      exact absurd h (List.cons_ne_nil _ _)

lemma collapseWsAux_false_nil : ∀ (t : Str), collapseWsAux false t = [] → t = [] := by
  intro t
  cases t with
  | nil => intro _; rfl
  | cons e rest =>
    intro h
    by_cases he : isSpaceB e = true
    · rw [show collapseWsAux false (e :: rest) = ' ' :: collapseWsAux true rest from by
        simp [collapseWsAux, he]] at h
      exact absurd h (List.cons_ne_nil _ _)
    · rw [show collapseWsAux false (e :: rest) = e :: collapseWsAux false rest from by
        simp [collapseWsAux, he]] at h
      exact absurd h (List.cons_ne_nil _ _)

/-- A trailing space in the output of whitespace collapse can only come from
a trailing space in its input. -/
lemma collapseWsAux_last_space : ∀ (t : Str) (b : Bool) (c : Char),
    (collapseWsAux b t).getLast? = some c → isSpaceB c = true →
    ∃ d, t.getLast? = some d ∧ isSpaceB d = true := by
  intro t
  induction t with
  | nil => intro b c h _; cases h
  | cons e rest ih =>
    intro b c h hc
    by_cases he : isSpaceB e = true
    · cases b with
      | true =>
        rw [show collapseWsAux true (e :: rest) = collapseWsAux true rest from by
          simp [collapseWsAux, he]] at h
        rcases ih true c h hc with ⟨d, hd, hds⟩
        have hrne : rest ≠ [] := by intro hr; rw [hr] at hd; cases hd
        exact ⟨d, by rw [getLast?_cons_of_ne_nil hrne]; exact hd, hds⟩
      | false =>
        rw [show collapseWsAux false (e :: rest) = ' ' :: collapseWsAux true rest from by
          simp [collapseWsAux, he]] at h
        by_cases hx : collapseWsAux true rest = []
        · by_cases hrest : rest = []
          · subst hrest
            exact ⟨e, rfl, he⟩
          · rcases exists_getLast? rest hrest with ⟨d, hd⟩
            have hds := collapseWsAux_true_nil rest hx d (getLast?_mem' rest d hd)
            exact ⟨d, by rw [getLast?_cons_of_ne_nil hrest]; exact hd, hds⟩
        · rw [getLast?_cons_of_ne_nil hx] at h
          rcases ih true c h hc with ⟨d, hd, hds⟩
          have hrne : rest ≠ [] := by intro hr; rw [hr] at hd; cases hd
          exact ⟨d, by rw [getLast?_cons_of_ne_nil hrne]; exact hd, hds⟩
    · rw [show collapseWsAux b (e :: rest) = e :: collapseWsAux false rest from by
        simp [collapseWsAux, he]] at h
      by_cases hx : collapseWsAux false rest = []
      · have hrest := collapseWsAux_false_nil rest hx
        subst hrest
        rw [show collapseWsAux false ([] : Str) = [] from rfl] at h
        simp only [List.getLast?_singleton, Option.some.injEq] at h
        rw [h] at he
        exact absurd hc he
      · rw [getLast?_cons_of_ne_nil hx] at h
        rcases ih false c h hc with ⟨d, hd, hds⟩
        have hrne : rest ≠ [] := by intro hr; rw [hr] at hd; cases hd
        exact ⟨d, by rw [getLast?_cons_of_ne_nil hrne]; exact hd, hds⟩

lemma noTrailSpace_collapseWs {t : Str} (h : noTrailSpace t) :
    noTrailSpace (collapseWs t) := by
  intro c hc
  by_cases hb : isSpaceB c = true
  · exfalso
    rcases collapseWsAux_last_space t false c hc hb with ⟨d, hd, hds⟩
    rw [h d hd] at hds
    cases hds
  · simpa using hb

lemma trimList_nil : trimList [] = [] := rfl

/-- Idempotence of normalization when both removal toggles are disabled: the
first pass's output then has no leading or trailing whitespace (trim ran
before collapse and the removals could not expose new edge whitespace), so a
second trim is the identity. -/
lemma normalize_idem_of_no_removals (v : Option Str) (c : NormalizationConfig)
    (hr : c.removeSpecialChars = false) (hn : c.removeNumbers = false) :
    normalizeString (some (normalizeString v c)) c = normalizeString v c := by
  by_cases htw : c.trimWhitespace = true
  case neg =>
    exact normalize_idem_of_no_trim v c (by simpa using htw)
  case pos =>
  cases v with
  | none =>
    show normalizeString (some []) c = []
    simp [normalizeString, trimList_nil, ite_self, collapseWs, collapseWsAux]
  | some s =>
    have hy := normalize_chars (some s) c
    have hyeq : normalizeString (some s) c
        = collapseWs (trimList (if c.toLowerCase = true then s.map lowerChar else s)) := by
      simp only [normalizeString]
      rw [if_pos htw,
        if_neg (show ¬(c.removeSpecialChars = true) by rw [hr]; exact Bool.false_ne_true),
        if_neg (show ¬(c.removeNumbers = true) by rw [hn]; exact Bool.false_ne_true)]
    have hL : noLeadSpace (normalizeString (some s) c) := by
      rw [hyeq]; exact noLeadSpace_collapseWs (noLeadSpace_trimList _)
    have hT : noTrailSpace (normalizeString (some s) c) := by
      rw [hyeq]; exact noTrailSpace_collapseWs (noTrailSpace_trimList _)
    set y := normalizeString (some s) c with hydef
    have h1 : (if c.toLowerCase = true then y.map lowerChar else y) = y := by
      by_cases hb : c.toLowerCase = true
      · rw [if_pos hb, List.map_congr_left (fun a ha => (hy a ha).1 hb)]
        exact List.map_id' y
      · rw [if_neg hb]
    have h2 : (if c.trimWhitespace = true then trimList y else y) = y := by
      rw [if_pos htw]
      exact trimList_eq_self hL hT
    have h3 : (if c.removeSpecialChars = true then y.filter isKeptChar else y) = y := by
      rw [if_neg (show ¬(c.removeSpecialChars = true) by rw [hr]; exact Bool.false_ne_true)]
    have h4 : (if c.removeNumbers = true then y.filter (fun ch => !isDigitChar ch) else y)
        = y := by
      rw [if_neg (show ¬(c.removeNumbers = true) by rw [hn]; exact Bool.false_ne_true)]
    calc normalizeString (some y) c
        = collapseWs y := by
          simp only [normalizeString]
          rw [h1, h2, h3, h4]
      _ = y := by rw [hydef]; exact collapseWs_normalizeString (some s) c

/-! ## Claim theorems -/

/-- C3: for every master row that ends the cascade with a non-empty candidate
pool, the reported match score is the accumulated total divided by the number
of configured key pairs, rounded half-up to the nearest integer, capped at
100, and a computed 0 is coerced to 100. -/
theorem c3_final_score (lookupData : List Row) (cfg : JoinConfig) (rowA : Row)
    (m : Nat) (rest : List Nat) (acc : ℚ)
    (h : cascade lookupData cfg rowA = (some (m :: rest), acc)) :
    ((processRow lookupData cfg rowA).1).matchStatus = true
    ∧ ((processRow lookupData cfg rowA).1).matchScore
      = (if min (jsRound (acc / (cfg.joinKeys.length : ℚ))) 100 = 0 then 100
         else min (jsRound (acc / (cfg.joinKeys.length : ℚ))) 100) := by
  unfold processRow
  rw [h]
  exact ⟨rfl, rfl⟩

/-- Witness for C3 at a concrete run (single exact key pair, score 100). -/
theorem c3_witness :
    cascade trowsW cfgW mrowW = (some [0], 100)
    ∧ (((processRow trowsW cfgW mrowW).1).matchStatus = true
       ∧ ((processRow trowsW cfgW mrowW).1).matchScore
         = (if min (jsRound ((100 : ℚ) / (cfgW.joinKeys.length : ℚ))) 100 = 0 then 100
            else min (jsRound ((100 : ℚ) / (cfgW.joinKeys.length : ℚ))) 100)) :=
  ⟨by decide, c3_final_score trowsW cfgW mrowW 0 [] 100 (by decide)⟩

/-- C6: a master row whose cascade ends with a non-empty pool is resolved to
the first candidate of the pool in the order the pool holds it (the output
row copies the target columns from that candidate); a pool adopted from an
index lookup is the bucket verbatim (step scored 100), and a scanned step's
pool is an order-preserving subselection of the scanned pool. -/
theorem c6_first_candidate_wins (lookupData : List Row) (cfg : JoinConfig) (rowA : Row)
    (m : Nat) (rest : List Nat) (acc : ℚ)
    (h : cascade lookupData cfg rowA = (some (m :: rest), acc)) :
    (processRow lookupData cfg rowA).2 = some m
    ∧ ((processRow lookupData cfg rowA).1).cells
      = cfg.masterColumns.map (fun c => (c, rowGet rowA c))
        ++ cfg.targetColumns.map (fun c => (c, rowGet (lookupData.getD m default) c))
    ∧ (∀ (kp : JoinKeyPair) (a : ℚ) (b : List Nat),
        indexGet lookupData cfg.normalization kp.right
            (normalizeString (rowGet rowA kp.left) cfg.normalization) = some b →
        (cfg.algorithms.contains .EXACT || cfg.algorithms.contains .LEVENSHTEIN) = true →
        cascadeStep lookupData cfg.algorithms cfg.threshold cfg.normalization rowA kp
            none a = (b, a + 100))
    ∧ ∀ (kp : JoinKeyPair) (l : List Nat) (a : ℚ),
        List.Sublist
          (cascadeStep lookupData cfg.algorithms cfg.threshold cfg.normalization rowA kp
            (some l) a).1 l := by
  refine ⟨?_, ?_, ?_, ?_⟩
  · unfold processRow; rw [h]
  · unfold processRow; rw [h]
  · intro kp a b hb halg
    unfold cascadeStep
    simp only [hb, halg, eq_self_iff_true, if_true]
  · intro kp l a
    rw [cascadeStep_some]
    exact List.filter_sublist l

/-- Witness for C6 at a concrete run. -/
theorem c6_witness :
    cascade trowsW cfgW mrowW = (some [0], 100)
    ∧ ((processRow trowsW cfgW mrowW).2 = some 0
       ∧ ((processRow trowsW cfgW mrowW).1).cells
         = cfgW.masterColumns.map (fun c => (c, rowGet mrowW c))
           ++ cfgW.targetColumns.map (fun c => (c, rowGet (trowsW.getD 0 default) c))
       ∧ (∀ (kp : JoinKeyPair) (a : ℚ) (b : List Nat),
           indexGet trowsW cfgW.normalization kp.right
               (normalizeString (rowGet mrowW kp.left) cfgW.normalization) = some b →
           (cfgW.algorithms.contains .EXACT || cfgW.algorithms.contains .LEVENSHTEIN) = true →
           cascadeStep trowsW cfgW.algorithms cfgW.threshold cfgW.normalization mrowW kp
               none a = (b, a + 100))
       ∧ ∀ (kp : JoinKeyPair) (l : List Nat) (a : ℚ),
           List.Sublist
             (cascadeStep trowsW cfgW.algorithms cfgW.threshold cfgW.normalization mrowW kp
               (some l) a).1 l) :=
  ⟨by decide, c6_first_candidate_wins trowsW cfgW mrowW 0 [] 100 (by decide)⟩

/-- C7: every output row of every run carries `_matchMethod = EXACT`: the
source initializes `finalMatchMethod` to `EXACT` and never reassigns it (the
per-key `methodForThisKey` is computed but not propagated). -/
theorem c7_match_method_always_exact (tableA tableB : List Row) (cfg : JoinConfig)
    (r : MatchResultRow) (h : r ∈ (runJoin tableA tableB cfg).outputRows) :
    r.matchMethod = .EXACT := by
  rw [runJoin_outputRows] at h
  rcases List.mem_map.mp h with ⟨rowA, _, rfl⟩
  exact processRow_matchMethod tableB cfg rowA

/-- Witness for C7: the output row of a concrete run (a fuzzy-threshold
Levenshtein match, so the scorer that matched was not exact). -/
theorem c7_witness :
    ((runJoin [mrowC4] trowsC4 cfgC4).outputRows.headD default)
        ∈ (runJoin [mrowC4] trowsC4 cfgC4).outputRows
    ∧ ((runJoin [mrowC4] trowsC4 cfgC4).outputRows.headD default).matchMethod = .EXACT :=
  ⟨by decide,
   c7_match_method_always_exact [mrowC4] trowsC4 cfgC4 _ (by decide)⟩

/-- C5: the per-row match outcome is a function of the master row, the
configuration and the target dataset only — `runJoin` maps a consumption-free
`processRow` over the master rows, and the consumption list only filters the
reported unused-target rows.  Concretely, two identical master rows both
claim target position 0. -/
theorem c5_outcome_ignores_consumption :
    (∀ (tableA tableB : List Row) (cfg : JoinConfig),
      (runJoin tableA tableB cfg).outputRows
          = tableA.map (fun r => (processRow tableB cfg r).1)
      ∧ (runJoin tableA tableB cfg).unmatchedTargetRows
          = (tableB.enum.filter (fun p =>
              !(tableA.filterMap (fun r => (processRow tableB cfg r).2)).contains p.1)).map
              (fun p => p.2))
    ∧ ([mrowW, mrowW].filterMap (fun r => (processRow trowsW cfgW r).2)) = [0, 0]
    ∧ (runJoin [mrowW, mrowW] trowsW cfgW).outputRows.map (fun r => r.matchStatus)
        = [true, true] := by
  exact ⟨fun tA tB cfg => ⟨runJoin_outputRows tA tB cfg, runJoin_unmatchedTargetRows tA tB cfg⟩,
    by decide, by decide⟩

/-- C1 counterexample: with two key pairs, an index hit on the first (step
total 100) and an exact scan with two survivors (100 each) on the second, the
code's accumulated total is `(100 + 100 + 100) / 2 = 150` (final score 75),
not the `100 + (100 + 100) / 2 = 200` the claim's "mean of the per-candidate
scores, earlier steps preserved unchanged" demands. -/
theorem c1_counterexample :
    cascade trowsC1 cfgC1 mrowC1 = (some [0, 1], 150)
    ∧ (runJoin [mrowC1] trowsC1 cfgC1).outputRows.map (fun r => r.matchScore) = [75]
    ∧ ¬ ((150 : ℚ) = 100 + (100 + 100) / 2) :=
  ⟨by decide, by decide, by decide⟩

/-- C1 amended: a scanned step entered with pool `l` and accumulated total
`acc` replaces the pool by the surviving candidates (in scanned order) and
replaces the accumulated total by `(acc + sum of the survivors' scores)`
divided by the survivor count: the prior accumulated total is divided along
with the scan scores (so it is preserved unchanged only when the scan has a
single survivor), and the shared accumulator is reset to this quotient before
the next key pair. -/
theorem c1_scan_mean_amended (lookupData : List Row) (algs : List MatchingAlgorithm)
    (threshold : ℚ) (ncfg : NormalizationConfig) (rowA : Row) (kp : JoinKeyPair)
    (l : List Nat) (acc : ℚ)
    (h : l.filter (fun i => (scanVerdict algs threshold ncfg lookupData kp.right
          (normalizeString (rowGet rowA kp.left) ncfg)
          (getPhoneticCode (normalizeString (rowGet rowA kp.left) ncfg)) i).1) ≠ []) :
    cascadeStep lookupData algs threshold ncfg rowA kp (some l) acc
      = (l.filter (fun i => (scanVerdict algs threshold ncfg lookupData kp.right
            (normalizeString (rowGet rowA kp.left) ncfg)
            (getPhoneticCode (normalizeString (rowGet rowA kp.left) ncfg)) i).1),
         (acc + ((l.filter (fun i => (scanVerdict algs threshold ncfg lookupData kp.right
            (normalizeString (rowGet rowA kp.left) ncfg)
            (getPhoneticCode (normalizeString (rowGet rowA kp.left) ncfg)) i).1)).map
              (fun i => (scanVerdict algs threshold ncfg lookupData kp.right
            (normalizeString (rowGet rowA kp.left) ncfg)
            (getPhoneticCode (normalizeString (rowGet rowA kp.left) ncfg)) i).2)).sum)
            / ((l.filter (fun i => (scanVerdict algs threshold ncfg lookupData kp.right
            (normalizeString (rowGet rowA kp.left) ncfg)
            (getPhoneticCode (normalizeString (rowGet rowA kp.left) ncfg)) i).1)).length : ℚ)) := by
  rw [cascadeStep_some, if_neg h]

/-- Witness for the amended C1 at the concrete second cascade step of the
counterexample scenario: incoming total 100, two surviving exact candidates,
outgoing total `(100 + 200) / 2 = 150`. -/
theorem c1_witness :
    ([0, 1].filter (fun i => (scanVerdict [.EXACT] 80 defaultNorm trowsC1 "b"
        (normalizeString (rowGet mrowC1 "b") defaultNorm)
        (getPhoneticCode (normalizeString (rowGet mrowC1 "b") defaultNorm)) i).1) ≠ [])
    ∧ cascadeStep trowsC1 [.EXACT] 80 defaultNorm mrowC1
        { id := "k2", left := "b", right := "b" } (some [0, 1]) 100 = ([0, 1], 150) := by
  refine ⟨by decide, ?_⟩
  rw [c1_scan_mean_amended trowsC1 [.EXACT] 80 defaultNorm mrowC1
    { id := "k2", left := "b", right := "b" } [0, 1] 100 (by decide)]
  decide

/-- C2 counterexample: a target row whose normalized value is empty (`"!!"`
under special-character stripping) is skipped by the indexer (`if (val)`), so
the Target Index has no empty-string key at all — the built map is empty —
contradicting the claim that it maps the empty string to `[0]`. -/
theorem c2_counterexample :
    normalizeString (rowGet trowC2 "a") defaultNorm = []
    ∧ indexGet [trowC2] defaultNorm "a" [] = none
    ∧ buildIndex [trowC2] defaultNorm "a" = [] :=
  ⟨by decide, by decide, by decide⟩

/-- C2 amended: the Target Index maps each NON-EMPTY normalized cell value of
the column to the list of target-row positions holding that value, in dataset
order; rows whose normalized value is the empty string are skipped, and an
empty-string lookup always misses. -/
theorem c2_index_contents (data : List Row) (ncfg : NormalizationConfig) (col : String)
    (v : Str) :
    indexGet data ncfg col v
      = if v = [] ∨ indexPositions ncfg col v data 0 = [] then none
        else some (indexPositions ncfg col v data 0) := by
  by_cases hv : v = []
  · subst hv
    rw [if_pos (Or.inl rfl)]
    exact mapGet_buildIndexGo_nil ncfg col data 0 [] rfl
  · rw [indexGet, buildIndex, mapGet_buildIndexGo ncfg col data 0 [] v hv, mapGet_nil]
    by_cases hp : indexPositions ncfg col v data 0 = []
    · simp [hp, hv]
    · simp [hp, hv]

/-- C8 counterexample: on the empty string, `s[0]` is `undefined` and
`undefined + ""` coerces to `"undefined"`, so the phonetic code is `"unde"`,
not the all-zero code `"0000"` the claim asserts. -/
theorem c8_counterexample :
    getPhoneticCode [] = strL "unde" ∧ getPhoneticCode [] ≠ List.replicate 4 '0' :=
  ⟨by decide, by decide⟩

/-- C8 amended: every phonetic code is exactly 4 characters, right-padded
with `'0'` when the encoded form is shorter (e.g. `"b" ↦ "B000"`); the empty
string, however, yields `"unde"` — the truncation of JavaScript's
`"undefined"` coercion — not the all-zero code. -/
theorem c8_phonetic_padded :
    (∀ s : Str, (getPhoneticCode s).length = 4)
    ∧ getPhoneticCode [] = strL "unde"
    ∧ getPhoneticCode (strL "b") = strL "B000" := by
  refine ⟨?_, by decide, by decide⟩
  intro s
  unfold getPhoneticCode
  simp only [List.length_append, List.length_replicate, List.length_take]
  omega

/-- C9: the collected AI candidates are never used to alter any result: two
configurations that agree on membership of every algorithm except
`AI_SEMANTIC` produce identical joined rows, unused-target rows and
statistics. -/
theorem c9_ai_semantic_inert (tableA tableB : List Row) (cfg : JoinConfig)
    (algs2 : List MatchingAlgorithm)
    (h : ∀ a : MatchingAlgorithm, a ≠ .AI_SEMANTIC →
      cfg.algorithms.contains a = algs2.contains a) :
    runJoin tableA tableB cfg = runJoin tableA tableB { cfg with algorithms := algs2 } := by
  have hE := h .EXACT (by decide)
  have hL := h .LEVENSHTEIN (by decide)
  have hP := h .PHONETIC (by decide)
  have hjs : joinStep tableB cfg = joinStep tableB { cfg with algorithms := algs2 } := by
    funext st rowA
    unfold joinStep
    rw [processRow_congr tableB cfg algs2 hE hL hP rowA]
  unfold runJoin
  rw [hjs]

/-- Witness for C9: enabling `AI_SEMANTIC` on top of exact matching changes
nothing in a concrete run. -/
theorem c9_witness :
    (∀ a : MatchingAlgorithm, a ≠ .AI_SEMANTIC →
      cfgW.algorithms.contains a
        = [MatchingAlgorithm.EXACT, MatchingAlgorithm.AI_SEMANTIC].contains a)
    ∧ runJoin [mrowW] trowsW cfgW
        = runJoin [mrowW] trowsW
            { cfgW with algorithms := [MatchingAlgorithm.EXACT, MatchingAlgorithm.AI_SEMANTIC] } :=
  ⟨by decide,
   c9_ai_semantic_inert [mrowW] trowsW cfgW
     [MatchingAlgorithm.EXACT, MatchingAlgorithm.AI_SEMANTIC] (by decide)⟩

/-- C4 counterexample: in the claim's scenario the master row is NOT recorded
as unmatched — the approximate similarity is computed on the full normalized
strings `"jon smith"` / `"john smith"` (edit distance 1 over length 10, i.e.
90 ≥ 80), so the row is recorded as matched with score 90. -/
theorem c4_counterexample :
    (runJoin [mrowC4] trowsC4 cfgC4).outputRows.map
        (fun r => (r.matchStatus, r.matchScore)) = [(true, 90)]
    ∧ (runJoin [mrowC4] trowsC4 cfgC4).matchedCount = 1
    ∧ (runJoin [mrowC4] trowsC4 cfgC4).unmatchedCount = 0 :=
  ⟨by decide, by decide, by decide⟩

/-- C4 amended: in the scenario, master row `"1"` matches target `"a"` with
score 90: the similarity of the full normalized key values is exactly 90,
which meets the threshold 80, and target `"b"` is the only unused row. -/
theorem c4_scenario_matches :
    similarityPercentage (strL "jon smith") (strL "john smith") * 100 = 90
    ∧ cascade trowsC4 cfgC4 mrowC4 = (some [0], 90)
    ∧ (processRow trowsC4 cfgC4 mrowC4).2 = some 0
    ∧ (runJoin [mrowC4] trowsC4 cfgC4).outputRows.map
        (fun r => (r.matchStatus, r.matchScore)) = [(true, 90)]
    ∧ (runJoin [mrowC4] trowsC4 cfgC4).unmatchedTargetRows = [trowsC4.getD 1 default] :=
  ⟨by decide, by decide, by decide, by decide, by decide⟩

/-- C10 counterexample: normalization is NOT idempotent for every
configuration.  With trimming and digit removal enabled, `"1 2"` normalizes
to `" "` (digit removal runs after trim, whitespace collapse runs last), and
normalizing again trims that space away, yielding `""`. -/
theorem c10_counterexample :
    normalizeString
        (some (normalizeString (some (strL "1 2")) ⟨false, true, false, true⟩))
        ⟨false, true, false, true⟩
      ≠ normalizeString (some (strL "1 2")) ⟨false, true, false, true⟩ := by decide

/-- C10 amended: normalization is idempotent for every configuration in which
trimming is disabled, or in which both removal toggles (special characters
and digits) are disabled.  When trimming is combined with a removal toggle,
a removal can expose edge whitespace that only the second pass trims. -/
theorem c10_idempotent_amended (v : Option Str) (c : NormalizationConfig)
    (h : c.trimWhitespace = false ∨ (c.removeSpecialChars = false ∧ c.removeNumbers = false)) :
    normalizeString (some (normalizeString v c)) c = normalizeString v c := by
  rcases h with h | ⟨h1, h2⟩
  · exact normalize_idem_of_no_trim v c h
  · exact normalize_idem_of_no_removals v c h1 h2

/-- Witness for the amended C10 on a concrete messy string with all toggles
except trimming enabled. -/
theorem c10_witness :
    ((⟨true, true, true, false⟩ : NormalizationConfig).trimWhitespace = false
      ∨ ((⟨true, true, true, false⟩ : NormalizationConfig).removeSpecialChars = false
         ∧ (⟨true, true, true, false⟩ : NormalizationConfig).removeNumbers = false))
    ∧ normalizeString
        (some (normalizeString (some (strL " A1d.&2 x ")) ⟨true, true, true, false⟩))
        ⟨true, true, true, false⟩
      = normalizeString (some (strL " A1d.&2 x ")) ⟨true, true, true, false⟩ :=
  ⟨Or.inl rfl,
   c10_idempotent_amended (some (strL " A1d.&2 x ")) ⟨true, true, true, false⟩ (Or.inl rfl)⟩
